import Mathlib

/-!
Verification development for the DGtal `BoundedLatticePolytope` module
(`src/DGtal/geometry/volumes/BoundedLatticePolytope.h`) and the digital-set
test harness (`tests/kernel/testDigitalSet.cpp`).

A polytope is stored in H-representation: a matrix of normal vectors `A`,
a vector of bounds `B`, strictness flags `I` and a bounding domain `D`.
Lattice points and vectors are modelled as lists of integers (one entry per
coordinate); machine integers of the `TInteger` template parameter are
modelled as unbounded integers, as the class is generic in the integer type.

The bodies of the inline implementation file (`BoundedLatticePolytope.ih`)
are not part of the examined sources; the corresponding operations are
modelled from the specification and carry a doc comment starting with
`Modelled from the spec:`.  The dimension specializers `addEdgeConstraint`
are implemented directly in the header and are translated from that source.
-/

namespace DGtal

/-- Lattice points and integer vectors: finite lists of integer
coordinates, mirroring the `Point`/`Vector` collaborator of the space
abstraction. -/
abbrev Pt := List Int

/-- Modelled from the spec: the space collaborator's dot product
(componentwise products, summed; coordinates beyond either list count as
zero). -/
def dot : Pt → Pt → Int
  | x :: xs, y :: ys => x * y + dot xs ys
  | _, _ => 0

/-- Componentwise subtraction of points, the edge vector `pts[i] - pts[j]`. -/
def vsub (u v : Pt) : Pt := List.zipWith (fun a b => a - b) u v

/-- The all-zero vector of a given dimension. -/
def zeroRow : Nat → Pt
  | 0 => []
  | d + 1 => 0 :: zeroRow d

/-- Modelled from the spec: the space collaborator's base-vector
constructor `Point::base(k, v)`, the `d`-dimensional vector with value `v`
at coordinate `k` and zero elsewhere. -/
def baseRow : Nat → Nat → Int → Pt
  | 0, _, _ => []
  | d + 1, 0, v => v :: zeroRow d
  | d + 1, k + 1, v => 0 :: baseRow d k v

/-- Modelled from the spec: the space collaborator's 3D cross product. -/
def crossProduct (u v : Pt) : Pt :=
  [ u.getD 1 0 * v.getD 2 0 - u.getD 2 0 * v.getD 1 0
  , u.getD 2 0 * v.getD 0 0 - u.getD 0 0 * v.getD 2 0
  , u.getD 0 0 * v.getD 1 0 - u.getD 1 0 * v.getD 0 0 ]

/-- The axis-aligned bounding domain `D` (lower and upper corner),
mirroring `HyperRectDomain`. -/
structure Dom where
  low : Pt
  high : Pt
deriving DecidableEq

/-- H-representation of a bounded lattice polytope: inequality rows `A`,
bounds `B`, strictness flags `I` (`true` means the inequality is large,
i.e. `≤`), and the bounding domain `D`; mirrors the protected data of
`BoundedLatticePolytope`. -/
structure Polytope where
  A : List Pt
  B : List Int
  I : List Bool
  D : Dom
deriving DecidableEq

/-- One inequality row is satisfied by `x`: `a·x ≤ b` when the row is
large, `a·x < b` when it is strict. -/
def rowSat (a : Pt) (b : Int) (large : Bool) (x : Pt) : Bool :=
  if large then decide (dot a x ≤ b) else decide (dot a x < b)

/-- `x` satisfies every stored inequality of `P` (with strictness per `I`). -/
def satisfiesAll (P : Polytope) (x : Pt) : Bool :=
  (List.range P.A.length).all fun i =>
    rowSat (P.A.getD i []) (P.B.getD i 0) (P.I.getD i true) x

/-- `x` lies in the axis-aligned domain: `low ≤ x ≤ high` componentwise. -/
def inDomain (D : Dom) (x : Pt) : Bool :=
  (List.range D.low.length).all fun k =>
    decide (D.low.getD k 0 ≤ x.getD k 0) && decide (x.getD k 0 ≤ D.high.getD k 0)

/-- Modelled from the spec: `isInside(p)` is true iff `p` satisfies every
row and lies in the bounding domain `D`. -/
def isInside (P : Polytope) (p : Pt) : Bool :=
  inDomain P.D p && satisfiesAll P p

/-- Modelled from the spec: `isDomainPointInside(p)` performs the same
per-row inequality check but skips the domain membership test. -/
def isDomainPointInside (P : Polytope) (p : Pt) : Bool :=
  satisfiesAll P p

/-- Index of the first row equal to `a`, if any (the parallel-face lookup
performed by `cut`). -/
def findEq (a : Pt) : List Pt → Option Nat
  | [] => none
  | x :: xs => if x = a then some 0 else (findEq a xs).map (· + 1)

/-- Modelled from the spec: `cut(a, b, large)` adds the half-space
`a·x ≤ b` (or `<`).  If an existing row already has this normal, that
row's bound is tightened to the more restrictive one and the strictness
flags are ANDed instead of appending a duplicate row; otherwise the row is
appended.  Returns the updated polytope and the index of the constraint. -/
def cut (P : Polytope) (a : Pt) (b : Int) (large : Bool) : Polytope × Nat :=
  match findEq a P.A with
  | some i =>
      ({ P with
          B := P.B.set i (min (P.B.getD i 0) b)
          I := P.I.set i (P.I.getD i true && large) }, i)
  | none =>
      ({ P with A := P.A ++ [a], B := P.B ++ [b], I := P.I ++ [large] },
        P.A.length)

/-- Modelled from the spec: `operator*=(t)` scales every bound `B[i]` by
`t`, leaving normals and strictness unchanged; the bounding domain's
corners are scaled accordingly so that it still encloses the dilated
polytope. -/
def scale (P : Polytope) (t : Int) : Polytope :=
  { P with
      B := P.B.map (· * t)
      D := ⟨P.D.low.map (· * t), P.D.high.map (· * t)⟩ }

/-- The positive part of an integer. -/
def posPart (c : Int) : Int := if 0 < c then c else 0

/-- One lattice step added to coordinate `k` of a corner vector. -/
def bump (v : Pt) (k : Nat) : Pt := v.set k (v.getD k 0 + 1)

/-- The bound update shared by the Minkowski sums with unit segments along
axis `k`: every row whose normal has a positive `k`-th coefficient has its
bound increased by that coefficient. -/
def segB (P : Polytope) (k : Nat) : List Int :=
  List.zipWith (fun a b => b + posPart (a.getD k 0)) P.A P.B

/-- Modelled from the spec: `operator+=(UnitSegment k)`, the Minkowski sum
with the closed unit segment along axis `k`: bounds are extended via
`segB` (for axis-aligned rows this extends the bound along that axis by
one lattice step), strictness is unchanged, and the upper corner of `D`
moves one step along `k`. -/
def plusSegment (P : Polytope) (k : Nat) : Polytope :=
  { P with B := segB P k, D := ⟨P.D.low, bump P.D.high k⟩ }

/-- Strictness flags after a right-open extension along axis `k`: rows
with positive `k`-th coefficient (the extended, upper side) become strict. -/
def strictUp (P : Polytope) (k : Nat) : List Bool :=
  List.zipWith (fun a ii => if 0 < a.getD k 0 then false else ii) P.A P.I

/-- Strictness flags after a left-open extension along axis `k`: rows with
negative `k`-th coefficient (the lower side) become strict. -/
def strictDown (P : Polytope) (k : Nat) : List Bool :=
  List.zipWith (fun a ii => if a.getD k 0 < 0 then false else ii) P.A P.I

/-- Modelled from the spec: `operator+=(RightStrictUnitSegment k)`, the
sum with the unit segment closed at 0 and open at 1: same bound extension
as the closed segment, but the extended upper side is relaxed to strict. -/
def plusSegmentRight (P : Polytope) (k : Nat) : Polytope :=
  { A := P.A, B := segB P k, I := strictUp P k, D := ⟨P.D.low, bump P.D.high k⟩ }

/-- Modelled from the spec: `operator+=(LeftStrictUnitSegment k)`, the sum
with the unit segment open at 0 and closed at 1: same bound extension as
the closed segment, but the lower side is relaxed to strict. -/
def plusSegmentLeft (P : Polytope) (k : Nat) : Polytope :=
  { A := P.A, B := segB P k, I := strictDown P k, D := ⟨P.D.low, bump P.D.high k⟩ }

/-- Modelled from the spec: `operator+=(UnitCell c)` performs the
Minkowski sum for a set of axes via repeated unit-segment sums. -/
def plusCell (P : Polytope) (dims : List Nat) : Polytope :=
  dims.foldl plusSegment P

/-- The integers from `a` to `b` (inclusive). -/
def intRange (a b : Int) : List Int :=
  (List.range (b + 1 - a).toNat).map fun n => a + (n : Int)

/-- All lattice points of the box `[low, high]`, in lexicographic order:
the scan order of the bounding domain used by the enumeration services. -/
def boxPoints : Pt → Pt → List Pt
  | [], [] => [[]]
  | a :: lo, b :: hi => (intRange a b).flatMap fun v => (boxPoints lo hi).map (v :: ·)
  | _, _ => []

/-- Number of elements of `l` satisfying `inside`, as an integer. -/
def countL (inside : Pt → Bool) : List Pt → Int
  | [] => 0
  | p :: ps => (if inside p then 1 else 0) + countL inside ps

/-- Scan of the domain points with an early-exit cap: stops and returns as
soon as `mx` points inside have been counted. -/
def countUpToL (inside : Pt → Bool) (mx : Int) : List Pt → Int → Int
  | [], nb => nb
  | p :: ps, nb =>
      if mx ≤ nb then nb
      else countUpToL inside mx ps (if inside p then nb + 1 else nb)

/-- Modelled from the spec: `count()` scans the bounding domain and tests
`isDomainPointInside` on every point. -/
def count (P : Polytope) : Int :=
  countL (isDomainPointInside P) (boxPoints P.D.low P.D.high)

/-- Modelled from the spec: `countUpTo(max)` performs the same scan but
short-circuits as soon as `max` points inside the polytope have been
counted. -/
def countUpTo (P : Polytope) (mx : Int) : Int :=
  countUpToL (isDomainPointInside P) mx (boxPoints P.D.low P.D.high) 0

/-- The generic (non-3D) specializer's `addEdgeConstraint`, translated
from the header: it only emits an error message on the trace stream and
performs no modification of the polytope.  The emitted text is returned
alongside the untouched polytope. -/
def addEdgeConstraintGeneric (P : Polytope) (_i _j : Nat) (_pts : List Pt) :
    Polytope × String :=
  (P, "[BoundedLatticePolytopeHelper::addEdgeConstraint] this method is only implemented in 3D.")

/-- The dimension of the 3D specializer. -/
def dimension3 : Nat := 3

/-- The 3D specializer's `addEdgeConstraint`, translated from the header:
for each sign `s` (first `+1`, then `-1`) and each axis `k`, it forms the
normal `n` as the cross product of the edge vector `pts[i] - pts[j]` with
`Point::base(k, s)`, the bound `b = n · pts[i]`, counts the points of
`pts` with `n · p < b`, and cuts `(n, b)` non-strictly whenever that count
equals `dimension - 1`. -/
def addEdgeConstraint3 (P : Polytope) (i j : Nat) (pts : List Pt) : Polytope :=
  [(1 : Int), -1].foldl
    (fun Q s =>
      [0, 1, 2].foldl
        (fun R k =>
          let ab := vsub (pts.getD i []) (pts.getD j [])
          let n := crossProduct ab (baseRow 3 k s)
          let b := dot n (pts.getD i [])
          let nbIn := pts.foldl (fun c p => if dot n p < b then c + 1 else c) 0
          if nbIn = dimension3 - 1 then (cut R n b true).1 else R)
        Q)
    P

/-- Modelled from the spec: the digital-set collaborator's `insert`, which
adds a lattice point only when it is not already a member. -/
def dsInsert (s : List Pt) (p : Pt) : List Pt :=
  if p ∈ s then s else p :: s

/-- Modelled from the spec: the digital-set collaborator's `size`. -/
def dsSize (s : List Pt) : Nat := s.length

/-- The parallel sequences of the H-representation have equal lengths and
the two domain corners have the same dimension (the stored-size invariant
of the class). -/
def Wf (P : Polytope) : Prop :=
  P.A.length = P.B.length ∧ P.A.length = P.I.length ∧
    P.D.low.length = P.D.high.length

/-- The structural invariant established at construction: for every axis
`k`, the row list contains an upper axis-aligned row `e_k · x ≤ b` with
`b` at most the upper corner, and a lower axis-aligned row
`-e_k · x ≤ b` with `b` at most the negated lower corner (the domain's
`2·dimension` explicit axis rows, kept in lockstep with `D`). -/
def AxisOK (P : Polytope) : Prop :=
  ∀ k, k < P.D.low.length →
    (∃ i, i < P.A.length ∧ P.A.getD i [] = baseRow P.D.low.length k 1 ∧
      P.B.getD i 0 ≤ P.D.high.getD k 0) ∧
    (∃ i, i < P.A.length ∧ P.A.getD i [] = baseRow P.D.low.length k (-1) ∧
      P.B.getD i 0 ≤ -(P.D.low.getD k 0))

/-- Bounding-domain soundness: every point satisfying all stored
inequalities lies within the bounding domain. -/
def DomSound (P : Polytope) : Prop :=
  ∀ x, satisfiesAll P x = true → inDomain P.D x = true

/-! ### List helper lemmas -/

theorem getD_set_self {α : Type} (l : List α) (i : Nat) (v d : α)
    (h : i < l.length) : (l.set i v).getD i d = v := by
  induction l generalizing i with
  | nil => simp at h
  | cons x xs ih =>
    cases i with
    | zero => simp [List.set]
    | succ n =>
      simp only [List.set, List.getD_cons_succ]
      exact ih n (by simpa using h)

theorem getD_set_ne {α : Type} (l : List α) (i j : Nat) (v d : α)
    (h : i ≠ j) : (l.set i v).getD j d = l.getD j d := by
  induction l generalizing i j with
  | nil => simp [List.set]
  | cons x xs ih =>
    cases i with
    | zero =>
      cases j with
      | zero => exact absurd rfl h
      | succ m => simp [List.set]
    | succ n =>
      cases j with
      | zero => simp [List.set]
      | succ m =>
        simp only [List.set, List.getD_cons_succ]
        exact ih n m (fun e => h (by rw [e]))

theorem set_oob {α : Type} (l : List α) (i : Nat) (v : α)
    (h : l.length ≤ i) : l.set i v = l := by
  induction l generalizing i with
  | nil => simp
  | cons x xs ih =>
    cases i with
    | zero => simp at h
    | succ n => simp only [List.set]; rw [ih n (by simpa using h)]

theorem getD_append_lt {α : Type} (l l' : List α) (i : Nat) (d : α)
    (h : i < l.length) : (l ++ l').getD i d = l.getD i d := by
  induction l generalizing i with
  | nil => simp at h
  | cons x xs ih =>
    cases i with
    | zero => simp
    | succ n =>
      simp only [List.cons_append, List.getD_cons_succ]
      exact ih n (by simpa using h)

theorem getD_append_len {α : Type} (l : List α) (v d : α) :
    (l ++ [v]).getD l.length d = v := by
  induction l with
  | nil => simp
  | cons x xs ih => simp [ih]

theorem set_append_len {α : Type} (l : List α) (v w : α) :
    (l ++ [v]).set l.length w = l ++ [w] := by
  induction l with
  | nil => simp
  | cons x xs ih =>
    simp only [List.cons_append, List.length_cons, List.set]
    exact congrArg (fun t => x :: t) ih

theorem getD_map_lt {α β : Type} (f : α → β) (l : List α) (i : Nat)
    (d : β) (d0 : α) (h : i < l.length) :
    (l.map f).getD i d = f (l.getD i d0) := by
  induction l generalizing i with
  | nil => simp at h
  | cons x xs ih =>
    cases i with
    | zero => simp
    | succ n =>
      simp only [List.map, List.getD_cons_succ]
      exact ih n (by simpa using h)

theorem getD_zipWith_lt {α β γ : Type} (f : α → β → γ) (l1 : List α)
    (l2 : List β) (i : Nat) (d : γ) (d1 : α) (d2 : β)
    (h1 : i < l1.length) (h2 : i < l2.length) :
    (List.zipWith f l1 l2).getD i d = f (l1.getD i d1) (l2.getD i d2) := by
  induction l1 generalizing i l2 with
  | nil => simp at h1
  | cons x xs ih =>
    cases l2 with
    | nil => simp at h2
    | cons y ys =>
      cases i with
      | zero => simp
      | succ n =>
        simp only [List.zipWith, List.getD_cons_succ]
        exact ih ys n (by simpa using h1) (by simpa using h2)

theorem zipWith_zipWith_left {α β γ : Type} (f : α → γ → γ) (g : α → β → γ)
    (l : List α) (l' : List β) :
    List.zipWith f l (List.zipWith g l l') =
      List.zipWith (fun a b => f a (g a b)) l l' := by
  induction l generalizing l' with
  | nil => simp
  | cons x xs ih =>
    cases l' with
    | nil => simp
    | cons y ys => simp [ih]

/-! ### Vector arithmetic lemmas -/

theorem dot_nil_right (a : Pt) : dot a [] = 0 := by
  cases a <;> simp [dot]

theorem dot_zeroRow (d : Nat) (x : Pt) : dot (zeroRow d) x = 0 := by
  induction d generalizing x with
  | zero => simp [zeroRow, dot]
  | succ n ih =>
    cases x with
    | nil => simp [dot_nil_right]
    | cons y ys => simp [zeroRow, dot, ih]

theorem dot_baseRow (d k : Nat) (v : Int) (x : Pt) (h : k < d) :
    dot (baseRow d k v) x = v * x.getD k 0 := by
  induction d generalizing k x with
  | zero => omega
  | succ n ih =>
    cases k with
    | zero =>
      cases x with
      | nil => simp [baseRow, dot_nil_right]
      | cons y ys => simp [baseRow, dot, dot_zeroRow]
    | succ m =>
      cases x with
      | nil => simp [baseRow, dot_nil_right]
      | cons y ys =>
        simp only [baseRow, dot, List.getD_cons_succ]
        rw [ih m ys (by omega)]
        ring

theorem getD_zeroRow (d m : Nat) : (zeroRow d).getD m 0 = 0 := by
  induction d generalizing m with
  | zero => simp [zeroRow]
  | succ p ih =>
    cases m with
    | zero => simp [zeroRow]
    | succ q => simp only [zeroRow, List.getD_cons_succ]; exact ih q

theorem getD_baseRow (d k : Nat) (v : Int) (m : Nat) :
    (baseRow d k v).getD m 0 = if k < d ∧ m = k then v else 0 := by
  induction d generalizing k m with
  | zero => simp [baseRow]
  | succ n ih =>
    cases k with
    | zero =>
      cases m with
      | zero => simp [baseRow]
      | succ m' =>
        simp only [baseRow, List.getD_cons_succ, getD_zeroRow]
        simp
    | succ k' =>
      cases m with
      | zero => simp [baseRow]
      | succ m' =>
        simp only [baseRow, List.getD_cons_succ, ih k' m']
        by_cases h1 : k' < n <;> by_cases h2 : m' = k' <;> simp [h1, h2]

/-! ### Row lookup, satisfaction and counting lemmas -/

theorem findEq_some_lt (a : Pt) (l : List Pt) (i : Nat)
    (h : findEq a l = some i) : i < l.length := by
  induction l generalizing i with
  | nil => simp [findEq] at h
  | cons x xs ih =>
    by_cases hx : x = a
    · simp [findEq, hx] at h
      simp only [List.length_cons]
      omega
    · simp only [findEq, if_neg hx] at h
      cases he : findEq a xs with
      | none => rw [he] at h; simp at h
      | some n =>
        rw [he] at h
        simp at h
        have := ih n he
        simp only [List.length_cons]
        omega

theorem findEq_none_append (a : Pt) (l : List Pt)
    (h : findEq a l = none) : findEq a (l ++ [a]) = some l.length := by
  induction l with
  | nil => simp [findEq]
  | cons x xs ih =>
    by_cases hx : x = a
    · simp [findEq, hx] at h
    · simp only [List.cons_append, findEq, if_neg hx] at h ⊢
      cases he : findEq a xs with
      | none =>
        show Option.map (fun x => x + 1) (findEq a (xs ++ [a])) = some (x :: xs).length
        rw [ih he]
        simp
      | some n => rw [he] at h; simp at h

theorem rowSat_le (a : Pt) (b : Int) (large : Bool) (x : Pt)
    (h : rowSat a b large x = true) : dot a x ≤ b := by
  cases large with
  | true => simpa [rowSat] using h
  | false =>
    simp only [rowSat, if_neg (by simp : ¬(false = true)), decide_eq_true_eq] at h
    omega

theorem satisfiesAll_row (P : Polytope) (x : Pt) (i : Nat)
    (hs : satisfiesAll P x = true) (hi : i < P.A.length) :
    rowSat (P.A.getD i []) (P.B.getD i 0) (P.I.getD i true) x = true := by
  have := (List.all_eq_true.mp hs) i (List.mem_range.mpr hi)
  simpa using this

theorem inDomain_intro (D : Dom) (x : Pt)
    (h : ∀ k, k < D.low.length →
      D.low.getD k 0 ≤ x.getD k 0 ∧ x.getD k 0 ≤ D.high.getD k 0) :
    inDomain D x = true := by
  refine List.all_eq_true.mpr fun k hk => ?_
  have hx := h k (List.mem_range.mp hk)
  simp only [Bool.and_eq_true, decide_eq_true_eq]
  exact hx

theorem countFold (p : Pt → Prop) [DecidablePred p] (l : List Pt) (c : Nat) :
    l.foldl (fun c q => if p q then c + 1 else c) c =
      c + (l.filter fun q => decide (p q)).length := by
  induction l generalizing c with
  | nil => simp
  | cons q qs ih =>
    by_cases h : p q
    · simp [List.foldl, h, ih]; omega
    · simp [List.foldl, h, ih]

theorem countL_nonneg (q : Pt → Bool) (l : List Pt) : 0 ≤ countL q l := by
  induction l with
  | nil => simp [countL]
  | cons p ps ih =>
    simp only [countL]
    by_cases h : q p = true <;> simp [h] <;> omega

theorem countUpToL_min (q : Pt → Bool) (mx : Int) (l : List Pt) (nb : Int)
    (h0 : 0 ≤ nb) (h1 : nb ≤ mx) :
    countUpToL q mx l nb = min (nb + countL q l) mx := by
  induction l generalizing nb with
  | nil =>
    simp only [countUpToL, countL]
    omega
  | cons p ps ih =>
    simp only [countUpToL, countL]
    by_cases hstop : mx ≤ nb
    · have hc := countL_nonneg q ps
      have : nb = mx := le_antisymm h1 hstop
      rw [if_pos hstop]
      by_cases hq : q p = true <;> simp [hq] <;> omega
    · rw [if_neg hstop]
      by_cases hq : q p = true
      · rw [if_pos hq, ih (nb + 1) (by omega) (by omega)]
        simp [hq]
        omega
      · rw [if_neg hq, ih nb h0 (by omega)]
        simp [hq]

/-! ### Bounding-domain invariant lemmas -/

theorem axisOK_domSound (P : Polytope) (hax : AxisOK P) : DomSound P := by
  intro x hx
  refine inDomain_intro P.D x fun k hk => ?_
  obtain ⟨⟨iu, hiu, hAu, hBu⟩, ⟨il, hil, hAl, hBl⟩⟩ := hax k hk
  have hu := rowSat_le _ _ _ _ (satisfiesAll_row P x iu hx hiu)
  have hl := rowSat_le _ _ _ _ (satisfiesAll_row P x il hx hil)
  rw [hAu, dot_baseRow _ _ _ _ hk] at hu
  rw [hAl, dot_baseRow _ _ _ _ hk] at hl
  have h1 := le_trans hu hBu
  have h2 := le_trans hl hBl
  omega

theorem axisOK_mono (P Q : Polytope) (hD : Q.D = P.D)
    (hlen : P.A.length ≤ Q.A.length)
    (hA : ∀ i, i < P.A.length → Q.A.getD i [] = P.A.getD i [])
    (hB : ∀ i, i < P.A.length → Q.B.getD i 0 ≤ P.B.getD i 0)
    (hax : AxisOK P) : AxisOK Q := by
  intro k hk
  rw [hD] at hk ⊢
  obtain ⟨⟨iu, hiu, hAu, hBu⟩, ⟨il, hil, hAl, hBl⟩⟩ := hax k hk
  exact ⟨⟨iu, lt_of_lt_of_le hiu hlen, by rw [hA iu hiu, hAu],
          le_trans (hB iu hiu) hBu⟩,
        ⟨il, lt_of_lt_of_le hil hlen, by rw [hA il hil, hAl],
          le_trans (hB il hil) hBl⟩⟩

theorem wf_cut (P : Polytope) (a : Pt) (b : Int) (l : Bool) (hw : Wf P) :
    Wf (cut P a b l).1 := by
  obtain ⟨h1, h2, h3⟩ := hw
  rcases hfe : findEq a P.A with _ | i0 <;>
    simp [cut, hfe, Wf, h1, h2, h3] <;> omega

theorem axisOK_cut (P : Polytope) (a : Pt) (b : Int) (l : Bool)
    (hw : Wf P) (hax : AxisOK P) : AxisOK (cut P a b l).1 := by
  obtain ⟨hAB, hAI, hLH⟩ := hw
  rcases hfe : findEq a P.A with _ | i0 <;> simp only [cut, hfe]
  · refine axisOK_mono P _ rfl (by simp) ?_ ?_ hax
    · intro i hi
      exact getD_append_lt _ _ _ _ hi
    · intro i hi
      exact le_of_eq (getD_append_lt _ _ _ _ (hAB ▸ hi))
  · refine axisOK_mono P _ rfl (by simp) (fun i _ => rfl) ?_ hax
    intro i hi
    by_cases hii : i = i0
    · subst hii
      have hib : i < P.B.length := hAB ▸ hi
      rw [getD_set_self _ _ _ _ hib]
      exact min_le_left _ _
    · rw [getD_set_ne _ _ _ _ _ fun e => hii e.symm]

theorem wf_scale (P : Polytope) (t : Int) (hw : Wf P) : Wf (scale P t) := by
  obtain ⟨h1, h2, h3⟩ := hw
  simp [scale, Wf, h1, h2, h3]
  omega

theorem axisOK_scale (P : Polytope) (t : Int) (hw : Wf P) (ht : 0 ≤ t)
    (hax : AxisOK P) : AxisOK (scale P t) := by
  obtain ⟨hAB, hAI, hLH⟩ := hw
  intro k hk
  have hk' : k < P.D.low.length := by simpa [scale] using hk
  obtain ⟨⟨iu, hiu, hAu, hBu⟩, ⟨il, hil, hAl, hBl⟩⟩ := hax k hk'
  have hkh : k < P.D.high.length := hLH ▸ hk'
  have hdim : (scale P t).D.low.length = P.D.low.length := by
    simp [scale]
  refine ⟨⟨iu, by simpa [scale] using hiu, ?_, ?_⟩,
          ⟨il, by simpa [scale] using hil, ?_, ?_⟩⟩
  · show P.A.getD iu [] = baseRow (P.D.low.map (· * t)).length k 1
    simpa using hAu
  · show (P.B.map (· * t)).getD iu 0 ≤ (P.D.high.map (· * t)).getD k 0
    rw [getD_map_lt _ _ _ _ 0 (hAB ▸ hiu), getD_map_lt _ _ _ _ 0 hkh]
    exact mul_le_mul_of_nonneg_right hBu ht
  · show P.A.getD il [] = baseRow (P.D.low.map (· * t)).length k (-1)
    simpa using hAl
  · show (P.B.map (· * t)).getD il 0 ≤ -(P.D.low.map (· * t)).getD k 0
    rw [getD_map_lt _ _ _ _ 0 (hAB ▸ hil), getD_map_lt _ _ _ _ 0 hk']
    have := mul_le_mul_of_nonneg_right hBl ht
    rw [neg_mul] at this
    exact this

theorem axisOK_seg (P : Polytope) (m : Nat) (Q : Polytope) (hw : Wf P)
    (hQA : Q.A = P.A) (hQB : Q.B = segB P m)
    (hQD : Q.D = ⟨P.D.low, bump P.D.high m⟩)
    (hax : AxisOK P) : AxisOK Q := by
  obtain ⟨hAB, hAI, hLH⟩ := hw
  intro k hk
  rw [hQD] at hk ⊢
  simp only at hk ⊢
  obtain ⟨⟨iu, hiu, hAu, hBu⟩, ⟨il, hil, hAl, hBl⟩⟩ := hax k hk
  have hkh : k < P.D.high.length := hLH ▸ hk
  have hBseg : ∀ i, i < P.A.length →
      Q.B.getD i 0 = P.B.getD i 0 + posPart ((P.A.getD i []).getD m 0) := by
    intro i hi
    rw [hQB]
    unfold segB
    rw [getD_zipWith_lt _ _ _ _ _ [] 0 hi (hAB ▸ hi)]
  refine ⟨⟨iu, by rw [hQA]; exact hiu, by rw [hQA]; exact hAu, ?_⟩,
          ⟨il, by rw [hQA]; exact hil, by rw [hQA]; exact hAl, ?_⟩⟩
  · rw [hBseg iu hiu, hAu, getD_baseRow]
    by_cases hm : m = k
    · subst hm
      rw [if_pos ⟨hk, rfl⟩]
      show P.B.getD iu 0 + posPart 1 ≤ (bump P.D.high m).getD m 0
      rw [show posPart 1 = 1 from rfl]
      unfold bump
      rw [getD_set_self _ _ _ _ hkh]
      omega
    · rw [if_neg fun hc => hm hc.2]
      show P.B.getD iu 0 + posPart 0 ≤ (bump P.D.high m).getD k 0
      rw [show posPart 0 = 0 from rfl]
      unfold bump
      rw [getD_set_ne _ _ _ _ _ hm]
      omega
  · rw [hBseg il hil, hAl, getD_baseRow]
    have hpos : posPart (if k < P.D.low.length ∧ m = k then -1 else 0) = 0 := by
      by_cases hc : k < P.D.low.length ∧ m = k <;> simp [hc, posPart]
    rw [hpos]
    omega

theorem wf_plusSegment (P : Polytope) (m : Nat) (hw : Wf P) :
    Wf (plusSegment P m) := by
  obtain ⟨h1, h2, h3⟩ := hw
  refine ⟨?_, ?_, ?_⟩ <;>
    simp [plusSegment, segB, bump, Wf, h1, h2, h3]
  omega

theorem wf_plusSegmentRight (P : Polytope) (m : Nat) (hw : Wf P) :
    Wf (plusSegmentRight P m) := by
  obtain ⟨h1, h2, h3⟩ := hw
  refine ⟨?_, ?_, ?_⟩ <;>
    simp [plusSegmentRight, segB, strictUp, bump, Wf, h1, h2, h3]
  omega

theorem wf_plusSegmentLeft (P : Polytope) (m : Nat) (hw : Wf P) :
    Wf (plusSegmentLeft P m) := by
  obtain ⟨h1, h2, h3⟩ := hw
  refine ⟨?_, ?_, ?_⟩ <;>
    simp [plusSegmentLeft, segB, strictDown, bump, Wf, h1, h2, h3]
  omega

theorem wf_axisOK_cell (P : Polytope) (dims : List Nat) (hw : Wf P)
    (hax : AxisOK P) : Wf (plusCell P dims) ∧ AxisOK (plusCell P dims) := by
  induction dims generalizing P with
  | nil => exact ⟨hw, hax⟩
  | cons m ms ih =>
    have hw' := wf_plusSegment P m hw
    have hax' := axisOK_seg P m (plusSegment P m) hw rfl rfl rfl hax
    have := ih (plusSegment P m) hw' hax'
    simpa [plusCell, List.foldl] using this

/-! ### Commutation of unit-segment Minkowski sums -/

theorem bump_comm (v : Pt) (k1 k2 : Nat) :
    bump (bump v k1) k2 = bump (bump v k2) k1 := by
  by_cases h : k1 = k2
  · subst h; rfl
  · show (v.set k1 (v.getD k1 0 + 1)).set k2
        ((v.set k1 (v.getD k1 0 + 1)).getD k2 0 + 1)
      = (v.set k2 (v.getD k2 0 + 1)).set k1
        ((v.set k2 (v.getD k2 0 + 1)).getD k1 0 + 1)
    rw [getD_set_ne _ _ _ _ _ h, getD_set_ne _ _ _ _ _ fun e => h e.symm]
    exact List.set_comm _ _ _ h

theorem segB_plusSegment (P : Polytope) (k1 k2 : Nat) :
    segB (plusSegment P k1) k2 =
      List.zipWith
        (fun a b => b + posPart (a.getD k1 0) + posPart (a.getD k2 0))
        P.A P.B := by
  show List.zipWith (fun a b => b + posPart (a.getD k2 0)) P.A
      (List.zipWith (fun a b => b + posPart (a.getD k1 0)) P.A P.B) = _
  rw [zipWith_zipWith_left]

theorem plusSegment_comm (P : Polytope) (k1 k2 : Nat) :
    plusSegment (plusSegment P k1) k2 = plusSegment (plusSegment P k2) k1 := by
  have hB : segB (plusSegment P k1) k2 = segB (plusSegment P k2) k1 := by
    rw [segB_plusSegment, segB_plusSegment]
    have hfun :
        (fun (a : Pt) (b : Int) =>
          b + posPart (a.getD k1 0) + posPart (a.getD k2 0))
        = fun (a : Pt) (b : Int) =>
          b + posPart (a.getD k2 0) + posPart (a.getD k1 0) := by
      funext a b
      ring
    rw [hfun]
  have hD : bump (bump P.D.high k1) k2 = bump (bump P.D.high k2) k1 :=
    bump_comm _ _ _
  show Polytope.mk P.A (segB (plusSegment P k1) k2) P.I
        ⟨P.D.low, bump (bump P.D.high k1) k2⟩
      = Polytope.mk P.A (segB (plusSegment P k2) k1) P.I
        ⟨P.D.low, bump (bump P.D.high k2) k1⟩
  rw [hB, hD]

theorem foldl_plusSegment_perm {l1 l2 : List Nat} (h : l1.Perm l2) :
    ∀ P : Polytope, List.foldl plusSegment P l1 = List.foldl plusSegment P l2 := by
  induction h with
  | nil => intro P; rfl
  | cons x _ ih => intro P; simp only [List.foldl_cons]; exact ih _
  | swap x y l => intro P; simp only [List.foldl_cons]; rw [plusSegment_comm]
  | trans _ _ ih1 ih2 => intro P; exact (ih1 P).trans (ih2 P)

/-! ### Witness fixtures -/

/-- A concrete 2D polytope: the square `[0,3] × [0,3]` stored through its
four explicit axis rows, as produced by the domain/half-space constructor. -/
def Pex : Polytope :=
  { A := [[1, 0], [0, 1], [-1, 0], [0, -1]], B := [3, 3, 0, 0],
    I := [true, true, true, true], D := ⟨[0, 0], [3, 3]⟩ }

theorem wf_Pex : Wf Pex := by
  unfold Wf
  exact ⟨rfl, rfl, rfl⟩

theorem axisOK_Pex : AxisOK Pex := by
  intro k hk
  have hk2 : k < 2 := hk
  match k, hk2 with
  | 0, _ =>
    exact ⟨⟨0, by decide, by decide, by decide⟩,
           ⟨2, by decide, by decide, by decide⟩⟩
  | 1, _ =>
    exact ⟨⟨1, by decide, by decide, by decide⟩,
           ⟨3, by decide, by decide, by decide⟩⟩

/-! ### Claim theorems -/

/-- C2: for every dimension where the generic (non-3D) specializer
applies, `addEdgeConstraint` is a no-op on the polytope: `A`, `B`, `I`
and `D` are unchanged, the method only produces an error message; edge
constraints are simply omitted. -/
theorem claim_generic_addEdgeConstraint_noop (P : Polytope) (i j : Nat)
    (pts : List Pt) :
    (addEdgeConstraintGeneric P i j pts).1.A = P.A ∧
    (addEdgeConstraintGeneric P i j pts).1.B = P.B ∧
    (addEdgeConstraintGeneric P i j pts).1.I = P.I ∧
    (addEdgeConstraintGeneric P i j pts).1.D = P.D :=
  ⟨rfl, rfl, rfl, rfl⟩

/-- C4: for every polytope `P` and point `p` inside the bounding domain
`D`, `isInside(p)` and `isDomainPointInside(p)` return the same boolean
(the former only adds the domain-membership test made redundant by the
precondition). -/
theorem claim_isInside_eq_isDomainPointInside (P : Polytope) (p : Pt)
    (h : inDomain P.D p = true) :
    isInside P p = isDomainPointInside P p := by
  simp [isInside, isDomainPointInside, h]

theorem claim_isInside_eq_isDomainPointInside_witness :
    inDomain Pex.D [1, 2] = true ∧
    isInside Pex [1, 2] = isDomainPointInside Pex [1, 2] :=
  ⟨by decide, claim_isInside_eq_isDomainPointInside Pex [1, 2] (by decide)⟩

/-- C7: for every polytope `P` and integer `t > 0`, `operator*=(t)`
multiplies every bound `B[i]` by `t` and leaves the normals `A` and the
strictness flags `I` unchanged (`t > 0` is the documented precondition). -/
theorem claim_dilation_scales_bounds_only (P : Polytope) (t : Int)
    (_h : 0 < t) :
    (scale P t).B = P.B.map (· * t) ∧ (scale P t).A = P.A ∧
      (scale P t).I = P.I :=
  ⟨rfl, rfl, rfl⟩

theorem claim_dilation_scales_bounds_only_witness :
    (0 : Int) < 2 ∧
    ((scale Pex 2).B = Pex.B.map (· * 2) ∧ (scale Pex 2).A = Pex.A ∧
      (scale Pex 2).I = Pex.I) :=
  ⟨by decide, claim_dilation_scales_bounds_only Pex 2 (by decide)⟩

/-- C9: inserting a point that is already a member of a digital-set
collection does not change its reported size; in particular after
inserting three distinct points and then the second one again, the size
is `3`. -/
theorem claim_digital_set_insert_size (s : List Pt) (p p1 p2 p3 : Pt)
    (hp : p ∈ s) (h12 : p1 ≠ p2) (h13 : p1 ≠ p3) (h23 : p2 ≠ p3) :
    dsSize (dsInsert s p) = dsSize s ∧
    dsSize (dsInsert (dsInsert (dsInsert (dsInsert [] p1) p2) p3) p2) = 3 := by
  constructor
  · simp [dsInsert, dsSize, hp]
  · have n21 : p2 ≠ p1 := Ne.symm h12
    have n31 : p3 ≠ p1 := Ne.symm h13
    have n32 : p3 ≠ p2 := Ne.symm h23
    simp [dsInsert, dsSize, n21, n31, n32]

theorem claim_digital_set_insert_size_witness :
    ([4, 3, 3, 4] : Pt) ∈ [([4, 3, 3, 4] : Pt)] ∧
    ([4, 3, 3, 4] : Pt) ≠ [2, 5, 3, 5] ∧
    ([4, 3, 3, 4] : Pt) ≠ [2, 5, 3, 4] ∧
    ([2, 5, 3, 5] : Pt) ≠ [2, 5, 3, 4] ∧
    (dsSize (dsInsert [[4, 3, 3, 4]] [4, 3, 3, 4]) = dsSize [[4, 3, 3, 4]] ∧
      dsSize (dsInsert (dsInsert (dsInsert (dsInsert [] [4, 3, 3, 4])
        [2, 5, 3, 5]) [2, 5, 3, 4]) [2, 5, 3, 5]) = 3) :=
  ⟨by decide, by decide, by decide, by decide,
    claim_digital_set_insert_size [[4, 3, 3, 4]] [4, 3, 3, 4] [4, 3, 3, 4]
      [2, 5, 3, 5] [2, 5, 3, 4] (by decide) (by decide) (by decide) (by decide)⟩

/-- C3: for every polytope `P` and integer `max ≥ 0`,
`countUpTo(max) = min(count(), max)`: both scan the bounded domain and
the former short-circuits as soon as `max` points inside have been
counted. -/
theorem claim_countUpTo_min (P : Polytope) (mx : Int) (h : 0 ≤ mx) :
    countUpTo P mx = min (count P) mx := by
  unfold countUpTo count
  rw [countUpToL_min _ _ _ _ le_rfl h]
  simp

theorem claim_countUpTo_min_witness :
    (0 : Int) ≤ 5 ∧ countUpTo Pex 5 = min (count Pex) 5 :=
  ⟨by decide, claim_countUpTo_min Pex 5 (by decide)⟩

/-- C5: Minkowski sum with axis-aligned unit segments is order
independent: for any two enumerations of the same multiset of axes the
repeated unit-segment sums agree, and the unit-cell sum equals the
repeated unit-segment sums over its axes in any order. -/
theorem claim_minkowski_sum_order_independent (P : Polytope)
    (l1 l2 : List Nat) (h : l1.Perm l2) :
    List.foldl plusSegment P l1 = List.foldl plusSegment P l2 ∧
    plusCell P l1 = List.foldl plusSegment P l2 := by
  have h1 := foldl_plusSegment_perm h P
  exact ⟨h1, h1⟩

theorem claim_minkowski_sum_order_independent_witness :
    ([0, 1] : List Nat).Perm [1, 0] ∧
    (List.foldl plusSegment Pex [0, 1] = List.foldl plusSegment Pex [1, 0] ∧
      plusCell Pex [0, 1] = List.foldl plusSegment Pex [1, 0]) :=
  ⟨by decide, claim_minkowski_sum_order_independent Pex [0, 1] [1, 0] (by decide)⟩

/-- C6: `cut` is idempotent: cutting the same `(a, b)` twice yields
exactly the state and returned row index of cutting once; moreover when a
row with the same normal direction already exists, `cut` does not append
a duplicate row but tightens that row's bound to the more restrictive one
and ANDs the strictness, returning that row's index. -/
theorem claim_cut_idempotent (P : Polytope) (a : Pt) (b : Int) (l : Bool)
    (hw : Wf P) :
    cut (cut P a b l).1 a b l = cut P a b l ∧
    (∀ i0, findEq a P.A = some i0 →
      (cut P a b l).1.A.length = P.A.length ∧ (cut P a b l).2 = i0 ∧
      (cut P a b l).1.B.getD i0 0 = min (P.B.getD i0 0) b ∧
      (cut P a b l).1.I.getD i0 true = (P.I.getD i0 true && l)) := by
  obtain ⟨hAB, hAI, _⟩ := hw
  constructor
  · rcases hfe : findEq a P.A with _ | i0
    · have hfe2 : findEq a (P.A ++ [a]) = some P.A.length :=
        findEq_none_append a P.A hfe
      have hgB : (P.B ++ [b]).getD P.A.length 0 = b := by
        rw [hAB]; exact getD_append_len _ _ _
      have hsB : (P.B ++ [b]).set P.A.length b = P.B ++ [b] := by
        rw [hAB]; exact set_append_len _ _ _
      have hgI : (P.I ++ [l]).getD P.A.length true = l := by
        rw [hAI]; exact getD_append_len _ _ _
      have hsI : (P.I ++ [l]).set P.A.length l = P.I ++ [l] := by
        rw [hAI]; exact set_append_len _ _ _
      simp only [cut, hfe, hfe2]
      rw [hgB, min_self, hsB, hgI, Bool.and_self, hsI]
    · have hi0 : i0 < P.A.length := findEq_some_lt _ _ _ hfe
      have hib : i0 < P.B.length := hAB ▸ hi0
      have hii : i0 < P.I.length := hAI ▸ hi0
      simp only [cut, hfe]
      rw [getD_set_self _ _ _ _ hib, min_assoc, min_self, List.set_set,
        getD_set_self _ _ _ _ hii, Bool.and_assoc, Bool.and_self, List.set_set]
  · intro i0 hfe
    have hi0 : i0 < P.A.length := findEq_some_lt _ _ _ hfe
    have hib : i0 < P.B.length := hAB ▸ hi0
    have hii : i0 < P.I.length := hAI ▸ hi0
    simp only [cut, hfe]
    refine ⟨by simp, by simp, getD_set_self _ _ _ _ hib,
      getD_set_self _ _ _ _ hii⟩

theorem claim_cut_idempotent_witness :
    Wf Pex ∧
    (cut (cut Pex [1, 1] 4 true).1 [1, 1] 4 true = cut Pex [1, 1] 4 true ∧
      (∀ i0, findEq [1, 1] Pex.A = some i0 →
        (cut Pex [1, 1] 4 true).1.A.length = Pex.A.length ∧
        (cut Pex [1, 1] 4 true).2 = i0 ∧
        (cut Pex [1, 1] 4 true).1.B.getD i0 0 = min (Pex.B.getD i0 0) 4 ∧
        (cut Pex [1, 1] 4 true).1.I.getD i0 true = (Pex.I.getD i0 true && true))) :=
  ⟨wf_Pex, claim_cut_idempotent Pex [1, 1] 4 true wf_Pex⟩

/-- C8: bounding-domain soundness is an invariant preserved by every
mutating operation.  A polytope whose rows contain the domain's explicit
axis rows in lockstep with `D` (the state established at construction)
satisfies `{x : Ax ≤ B per I} ⊆ {x : D.low ≤ x ≤ D.high}`, and `cut`,
`operator*=` with `t > 0` and the whole `operator+=` family preserve that
state, hence soundness of `D` after each of them: `D` may be loose but
never excludes a solution point. -/
theorem claim_bounding_domain_sound (P : Polytope) (a : Pt) (b t : Int)
    (l : Bool) (m : Nat) (dims : List Nat) (hw : Wf P) (hax : AxisOK P) :
    DomSound P ∧
    (Wf (cut P a b l).1 ∧ AxisOK (cut P a b l).1 ∧ DomSound (cut P a b l).1) ∧
    (0 < t → Wf (scale P t) ∧ AxisOK (scale P t) ∧ DomSound (scale P t)) ∧
    (Wf (plusSegment P m) ∧ AxisOK (plusSegment P m) ∧
      DomSound (plusSegment P m)) ∧
    (Wf (plusSegmentRight P m) ∧ AxisOK (plusSegmentRight P m) ∧
      DomSound (plusSegmentRight P m)) ∧
    (Wf (plusSegmentLeft P m) ∧ AxisOK (plusSegmentLeft P m) ∧
      DomSound (plusSegmentLeft P m)) ∧
    (Wf (plusCell P dims) ∧ AxisOK (plusCell P dims) ∧
      DomSound (plusCell P dims)) := by
  have hc := axisOK_cut P a b l hw hax
  have hsg := axisOK_seg P m (plusSegment P m) hw rfl rfl rfl hax
  have hsr := axisOK_seg P m (plusSegmentRight P m) hw rfl rfl rfl hax
  have hsl := axisOK_seg P m (plusSegmentLeft P m) hw rfl rfl rfl hax
  have hcell := wf_axisOK_cell P dims hw hax
  refine ⟨axisOK_domSound P hax,
    ⟨wf_cut P a b l hw, hc, axisOK_domSound _ hc⟩,
    fun ht => ?_,
    ⟨wf_plusSegment P m hw, hsg, axisOK_domSound _ hsg⟩,
    ⟨wf_plusSegmentRight P m hw, hsr, axisOK_domSound _ hsr⟩,
    ⟨wf_plusSegmentLeft P m hw, hsl, axisOK_domSound _ hsl⟩,
    ⟨hcell.1, hcell.2, axisOK_domSound _ hcell.2⟩⟩
  have hs := axisOK_scale P t hw (le_of_lt ht) hax
  exact ⟨wf_scale P t hw, hs, axisOK_domSound _ hs⟩

theorem claim_bounding_domain_sound_witness :
    Wf Pex ∧ AxisOK Pex ∧
    (DomSound Pex ∧
      (Wf (cut Pex [1, 1] 5 true).1 ∧ AxisOK (cut Pex [1, 1] 5 true).1 ∧
        DomSound (cut Pex [1, 1] 5 true).1) ∧
      (0 < (2 : Int) → Wf (scale Pex 2) ∧ AxisOK (scale Pex 2) ∧
        DomSound (scale Pex 2)) ∧
      (Wf (plusSegment Pex 0) ∧ AxisOK (plusSegment Pex 0) ∧
        DomSound (plusSegment Pex 0)) ∧
      (Wf (plusSegmentRight Pex 0) ∧ AxisOK (plusSegmentRight Pex 0) ∧
        DomSound (plusSegmentRight Pex 0)) ∧
      (Wf (plusSegmentLeft Pex 0) ∧ AxisOK (plusSegmentLeft Pex 0) ∧
        DomSound (plusSegmentLeft Pex 0)) ∧
      (Wf (plusCell Pex [0, 1]) ∧ AxisOK (plusCell Pex [0, 1]) ∧
        DomSound (plusCell Pex [0, 1]))) :=
  ⟨wf_Pex, axisOK_Pex,
    claim_bounding_domain_sound Pex [1, 1] 5 2 true 0 [0, 1] wf_Pex axisOK_Pex⟩

/-- C10: every half-space added by the 3D specializer has both edge
endpoints on its bounding hyperplane: with `n` the cross product of the
edge vector with an axis vector and `b = n · pts[i]`, both endpoints give
`n · p = b`, so both still satisfy the non-strictly cut inequality
`n · x ≤ b` (the edge is never cut off). -/
theorem claim_edge_endpoints_on_cut_hyperplane (a c : Pt) (k : Nat)
    (s : Int) (ha : a.length = 3) (hc : c.length = 3) :
    dot (crossProduct (vsub a c) (baseRow 3 k s)) c
      = dot (crossProduct (vsub a c) (baseRow 3 k s)) a ∧
    rowSat (crossProduct (vsub a c) (baseRow 3 k s))
      (dot (crossProduct (vsub a c) (baseRow 3 k s)) a) true a = true ∧
    rowSat (crossProduct (vsub a c) (baseRow 3 k s))
      (dot (crossProduct (vsub a c) (baseRow 3 k s)) a) true c = true := by
  obtain ⟨a0, a1, a2, rfl⟩ := List.length_eq_three.mp ha
  obtain ⟨c0, c1, c2, rfl⟩ := List.length_eq_three.mp hc
  have key : dot (crossProduct (vsub [a0, a1, a2] [c0, c1, c2]) (baseRow 3 k s))
        [c0, c1, c2]
      = dot (crossProduct (vsub [a0, a1, a2] [c0, c1, c2]) (baseRow 3 k s))
        [a0, a1, a2] := by
    match k with
    | 0 => simp [crossProduct, vsub, dot, baseRow, zeroRow]; ring
    | 1 => simp [crossProduct, vsub, dot, baseRow, zeroRow]; ring
    | 2 => simp [crossProduct, vsub, dot, baseRow, zeroRow]; ring
    | n + 3 => simp [crossProduct, vsub, dot, baseRow, zeroRow]
  exact ⟨key, by simp [rowSat], by simp [rowSat, key]⟩

theorem claim_edge_endpoints_on_cut_hyperplane_witness :
    ([0, 0, 0] : Pt).length = 3 ∧ ([1, 2, 3] : Pt).length = 3 ∧
    (dot (crossProduct (vsub [0, 0, 0] [1, 2, 3]) (baseRow 3 1 (-1))) [1, 2, 3]
      = dot (crossProduct (vsub [0, 0, 0] [1, 2, 3]) (baseRow 3 1 (-1))) [0, 0, 0] ∧
    rowSat (crossProduct (vsub [0, 0, 0] [1, 2, 3]) (baseRow 3 1 (-1)))
      (dot (crossProduct (vsub [0, 0, 0] [1, 2, 3]) (baseRow 3 1 (-1))) [0, 0, 0])
      true [0, 0, 0] = true ∧
    rowSat (crossProduct (vsub [0, 0, 0] [1, 2, 3]) (baseRow 3 1 (-1)))
      (dot (crossProduct (vsub [0, 0, 0] [1, 2, 3]) (baseRow 3 1 (-1))) [0, 0, 0])
      true [1, 2, 3] = true) :=
  ⟨rfl, rfl,
    claim_edge_endpoints_on_cut_hyperplane [0, 0, 0] [1, 2, 3] 1 (-1) rfl rfl⟩

/-- C1: the 3D specializer's `addEdgeConstraint` is exactly the following
process: for each of the two signs (`+1` then `-1`) and each of the three
axes `k`, form the normal `n` as the cross product of the edge vector
`pts[i] - pts[j]` with `s·unit_k` and the bound `b = n · pts[i]`, and cut
the non-strict half-space `n·x ≤ b` into the polytope if and only if
exactly `dimension - 1 = 2` of the simplex's points `p` satisfy `n·p < b`
strictly; no other modification is made. -/
theorem claim_addEdgeConstraint3_cuts_iff_two_strict (P : Polytope)
    (i j : Nat) (pts : List Pt) :
    addEdgeConstraint3 P i j pts =
      List.foldl
        (fun Q sk =>
          let n := crossProduct (vsub (pts.getD i []) (pts.getD j []))
            (baseRow 3 sk.2 sk.1)
          let b := dot n (pts.getD i [])
          if (pts.filter fun p => decide (dot n p < b)).length = 2
          then (cut Q n b true).1 else Q)
        P [((1 : Int), (0 : Nat)), (1, 1), (1, 2), (-1, 0), (-1, 1), (-1, 2)] := by
  unfold addEdgeConstraint3
  simp only [List.foldl_cons, List.foldl_nil, countFold, dimension3,
    Nat.zero_add]

end DGtal
